import Mathlib

/-!
Shallow embedding of the `bytesurl` package (a byte-oriented port of Go's
`net/url`): context-sensitive percent-encoding, URL parsing, reference
resolution and the query multimap codec, together with theorems checking the
natural-language specification against the code.

Byte strings (`[]byte`) are modelled as `List Nat`, each element a byte value.
-/

namespace Bytesurl

/-- Byte strings: Go `[]byte` values, one `Nat` per byte. -/
abbrev ByteStr := List Nat

/-- Translation of `ishex` from bytesurl.go: is `c` an ASCII hex digit. -/
def ishex (c : Nat) : Bool :=
  if 48 ≤ c ∧ c ≤ 57 then true
  else if 97 ≤ c ∧ c ≤ 102 then true
  else if 65 ≤ c ∧ c ≤ 70 then true
  else false

/-- Translation of `unhex` from bytesurl.go: the value of an ASCII hex digit. -/
def unhex (c : Nat) : Nat :=
  if 48 ≤ c ∧ c ≤ 57 then c - 48
  else if 97 ≤ c ∧ c ≤ 102 then c - 97 + 10
  else if 65 ≤ c ∧ c ≤ 70 then c - 65 + 10
  else 0

/-- The four escaping contexts of bytesurl.go (`encoding` constants). -/
inductive encoding where
  | encodePath
  | encodeUserPassword
  | encodeQueryComponent
  | encodeFragment
deriving DecidableEq, Repr

/-- Translation of `shouldEscape` from bytesurl.go: whether byte `c` must be
percent-escaped in context `mode`. -/
def shouldEscape (c : Nat) (mode : encoding) : Bool :=
  -- §2.3 Unreserved characters (alphanum)
  if (65 ≤ c ∧ c ≤ 90) ∨ (97 ≤ c ∧ c ≤ 122) ∨ (48 ≤ c ∧ c ≤ 57) then false
  -- §2.3 Unreserved characters (mark): - _ . ~
  else if c = 45 ∨ c = 95 ∨ c = 46 ∨ c = 126 then false
  -- §2.2 Reserved characters: $ & + , / : ; = ? @
  else if c = 36 ∨ c = 38 ∨ c = 43 ∨ c = 44 ∨ c = 47 ∨ c = 58 ∨ c = 59 ∨
          c = 61 ∨ c = 63 ∨ c = 64 then
    match mode with
    | .encodePath => c == 63
    | .encodeUserPassword => c == 64 || c == 47 || c == 63 || c == 58
    | .encodeQueryComponent => true
    | .encodeFragment => false
  -- Everything else must be escaped.
  else true

/-- The byte table `"0123456789ABCDEF"` used by `escape`. -/
def hexUpper : ByteStr := [48, 49, 50, 51, 52, 53, 54, 55, 56, 57, 65, 66, 67, 68, 69, 70]

/-- What `escape`'s writing loop in bytesurl.go emits for one input byte. -/
def escChar (mode : encoding) (c : Nat) : ByteStr :=
  if c = 32 ∧ mode = .encodeQueryComponent then [43]
  else if shouldEscape c mode then [37, hexUpper.getD (c >>> 4) 0, hexUpper.getD (c &&& 15) 0]
  else [c]

/-- The counting loop of `escape` in bytesurl.go: `(spaceCount, hexCount)`. -/
def escapeCount : ByteStr → encoding → Nat × Nat
  | [], _ => (0, 0)
  | c :: s, mode =>
    if shouldEscape c mode then
      if c = 32 ∧ mode = .encodeQueryComponent then
        ((escapeCount s mode).1 + 1, (escapeCount s mode).2)
      else ((escapeCount s mode).1, (escapeCount s mode).2 + 1)
    else escapeCount s mode

/-- Translation of `escape` from bytesurl.go: if nothing needs escaping the
input is returned unchanged, otherwise the output buffer is built byte by
byte. -/
def escape (s : ByteStr) (mode : encoding) : ByteStr :=
  if (escapeCount s mode).1 = 0 ∧ (escapeCount s mode).2 = 0 then s
  else (s.map (escChar mode)).flatten

/-- The validation pass of `unescape` in bytesurl.go: `none` when every `%` is
followed by two hex digits, otherwise the `EscapeError` payload, which is the
input from the offending `%` on, capped at 3 bytes. -/
def scanErr : ByteStr → Option ByteStr
  | [] => none
  | 37 :: a :: b :: s => if ishex a && ishex b then scanErr s else some [37, a, b]
  | 37 :: s => some (37 :: s)
  | _ :: s => scanErr s

/-- The writing pass of `unescape` in bytesurl.go: decode `%XY` triples, map
`+` to space in the query-component context, copy everything else. -/
def decodeLoop : ByteStr → encoding → ByteStr
  | [], _ => []
  | 37 :: a :: b :: s, mode => ((unhex a) <<< 4 ||| unhex b) :: decodeLoop s mode
  | 43 :: s, mode => (if mode = .encodeQueryComponent then 32 else 43) :: decodeLoop s mode
  | c :: s, mode => c :: decodeLoop s mode

/-- Translation of `unescape` from bytesurl.go, keeping Go's
`([]byte, error)` shape as a pair of the data and an optional error payload.
On a malformed escape the data returned is `EmptyByte`.  When the input holds
no `%` and no mode-relevant `+`, the input itself is returned. -/
def unescape (s : ByteStr) (mode : encoding) : ByteStr × Option ByteStr :=
  match scanErr s with
  | some e => ([], some e)
  | none =>
    if s.count 37 = 0 ∧ ¬(mode = .encodeQueryComponent ∧ 43 ∈ s) then (s, none)
    else (decodeLoop s mode, none)

/-- Translation of `QueryEscape` from bytesurl.go. -/
def QueryEscape (b : ByteStr) : ByteStr := escape b .encodeQueryComponent

/-- Translation of `QueryUnescape` from bytesurl.go. -/
def QueryUnescape (s : ByteStr) : ByteStr × Option ByteStr :=
  unescape s .encodeQueryComponent

/-- The error variables of bytesurl.go, plus the `EscapeError` payload case. -/
inductive Err where
  | protocolScheme
  | emptyURL
  | invalidRequestURI
  | hexEscape
  | escapeErr (payload : ByteStr)
deriving DecidableEq, Repr

/-- Translation of `Userinfo` from userinfo.go. -/
structure Userinfo where
  username : ByteStr
  password : ByteStr
  passwordSet : Bool
deriving DecidableEq, Repr

/-- Translation of `User` from userinfo.go. -/
def User (username : ByteStr) : Userinfo := ⟨username, [], false⟩

/-- Translation of `UserPassword` from userinfo.go. -/
def UserPassword (username password : ByteStr) : Userinfo := ⟨username, password, true⟩

/-- Translation of the `URL` struct from bytesurl.go; the nilable `*Userinfo`
field becomes an `Option`. -/
structure URL where
  scheme : ByteStr := []
  opq : ByteStr := []      -- the Opaque field
  user : Option Userinfo := none
  host : ByteStr := []
  path : ByteStr := []
  rawQuery : ByteStr := []
  fragment : ByteStr := []
deriving DecidableEq, Repr

/-- Go `bytes.HasPrefix`. -/
def hasPfx (s p : ByteStr) : Bool := s.take p.length == p

/-- Go `bytes.ToLower` restricted to ASCII, which is all the scheme bytes the
call site can pass. -/
def toLowerAscii (s : ByteStr) : ByteStr :=
  s.map fun c => if 65 ≤ c ∧ c ≤ 90 then c + 32 else c

/-- The index loop of `getscheme` from bytesurl.go, scanning from byte `i`. -/
def getschemeAux (rawurl : ByteStr) (i : Nat) : Except Err (ByteStr × ByteStr) :=
  if h : i < rawurl.length then
    let c := rawurl.get ⟨i, h⟩
    if (97 ≤ c ∧ c ≤ 122) ∨ (65 ≤ c ∧ c ≤ 90) then getschemeAux rawurl (i + 1)
    else if (48 ≤ c ∧ c ≤ 57) ∨ c = 43 ∨ c = 45 ∨ c = 46 then
      if i = 0 then .ok ([], rawurl) else getschemeAux rawurl (i + 1)
    else if c = 58 then
      if i = 0 then .error .protocolScheme
      else .ok (rawurl.take i, rawurl.drop (i + 1))
    else .ok ([], rawurl)
  else .ok ([], rawurl)
termination_by rawurl.length - i

/-- Translation of `getscheme` from bytesurl.go. -/
def getscheme (rawurl : ByteStr) : Except Err (ByteStr × ByteStr) :=
  getschemeAux rawurl 0

/-- Translation of `split` from bytesurl.go, specialised to the single-byte
separators every call site uses.  `bytes.Index` is the first occurrence. -/
def split (s : ByteStr) (c : Nat) (cutc : Bool) : ByteStr × ByteStr :=
  let i := s.findIdx fun b => b == c
  if i = s.length then (s, [])
  else if cutc then (s.take i, s.drop (i + 1))
  else (s.take i, s.drop i)

/-- Go `bytes.LastIndex` for a single-byte separator: the index of the last
occurrence, `-1` when absent. -/
def lastIndexByte : ByteStr → Nat → Int
  | [], _ => -1
  | b :: rest, c =>
    let r := lastIndexByte rest c
    if r ≥ 0 then r + 1 else if b = c then 0 else -1

/-- Translation of `parseAuthority` from bytesurl.go: split on the last `@`
into userinfo and host, decode userinfo in the user-password context. -/
def parseAuthority (authority : ByteStr) : Except Err (Option Userinfo × ByteStr) :=
  let i := lastIndexByte authority 64
  if i < 0 then .ok (none, authority)
  else
    let userinfo := authority.take i.toNat
    let host := authority.drop (i.toNat + 1)
    if 58 ∈ userinfo then
      let (username0, password0) := split userinfo 58 true
      match unescape username0 .encodeUserPassword with
      | (_, some e) => .error (.escapeErr e)
      | (username, none) =>
        match unescape password0 .encodeUserPassword with
        | (_, some e) => .error (.escapeErr e)
        | (password, none) => .ok (some (UserPassword username password), host)
    else
      match unescape userinfo .encodeUserPassword with
      | (_, some e) => .error (.escapeErr e)
      | (u, none) => .ok (some (User u), host)

/-- The authority-detection guard on line 372 of bytesurl.go, in source
order: `(scheme != "" || !viaRequest && !hasPfx(rest,"///")) &&
hasPfx(rest,"//")`. -/
def authorityTriggered (scheme rest : ByteStr) (viaRequest : Bool) : Bool :=
  (!scheme.isEmpty || (!viaRequest && !hasPfx rest [47, 47, 47])) && hasPfx rest [47, 47]

/-- The tail of `parse` from bytesurl.go: authority detection followed by
path decoding, for a given scheme, post-query remainder and raw query. -/
def parseAfterOpaque (scheme rest rawQuery : ByteStr) (viaRequest : Bool) : Except Err URL :=
  if authorityTriggered scheme rest viaRequest then
    match parseAuthority (split (rest.drop 2) 47 false).1 with
    | .error e => .error e
    | .ok (user, host) =>
      if 37 ∈ host then .error .hexEscape
      else
        match unescape (split (rest.drop 2) 47 false).2 .encodePath with
        | (_, some e) => .error (.escapeErr e)
        | (p, none) =>
          .ok { scheme := scheme, user := user, host := host, path := p, rawQuery := rawQuery }
  else
    match unescape rest .encodePath with
    | (_, some e) => .error (.escapeErr e)
    | (p, none) => .ok { scheme := scheme, path := p, rawQuery := rawQuery }

/-- The no-leading-slash / opaque handling of `parse` in bytesurl.go followed
by the authority and path steps, for a given lowercased scheme, post-query
remainder and raw query. -/
def parsePostScheme (scheme rest rawQuery : ByteStr) (viaRequest : Bool) : Except Err URL :=
  if hasPfx rest [47] = false then
    if scheme ≠ [] then .ok { scheme := scheme, opq := rest, rawQuery := rawQuery }
    else if viaRequest = true then .error .invalidRequestURI
    else parseAfterOpaque scheme rest rawQuery viaRequest
  else parseAfterOpaque scheme rest rawQuery viaRequest

/-- Translation of the internal `parse` from bytesurl.go.  Error wrapping in
`&Error{"parse", rawurl, err}` only decorates the cause, so the bare cause is
returned. -/
def parse (rawurl : ByteStr) (viaRequest : Bool) : Except Err URL :=
  if rawurl = [] ∧ viaRequest = true then .error .emptyURL
  else if rawurl = [42] then .ok { path := [42] }
  else
    match getscheme rawurl with
    | .error e => .error e
    | .ok (scheme0, rest0) =>
      parsePostScheme (toLowerAscii scheme0) (split rest0 63 true).1 (split rest0 63 true).2
        viaRequest

/-- Translation of the exported `Parse` from bytesurl.go: cut off `#frag`,
parse the rest permissively, then decode the fragment. -/
def Parse (rawurl : ByteStr) : Except Err URL :=
  let (u, frag) := split rawurl 35 true
  match parse u false with
  | .error e => .error e
  | .ok url =>
    if frag = [] then .ok url
    else
      match unescape frag .encodeFragment with
      | (_, some e) => .error (.escapeErr e)
      | (f, none) => .ok { url with fragment := f }

/-- Translation of `ParseRequestURI` from bytesurl.go. -/
def ParseRequestURI (rawurl : ByteStr) : Except Err URL := parse rawurl true

/-- Go `bytes.Split` for a single-byte separator. -/
def bsplit (c : Nat) : ByteStr → List ByteStr
  | [] => [[]]
  | b :: rest =>
    match bsplit c rest with
    | [] => [[]]
    | x :: xs => if b = c then [] :: x :: xs else (b :: x) :: xs

/-- Translation of `resolvePath` from bytesurl.go: merge the reference path
into the base path, remove dot-segments, rebuild rooted at `/`. -/
def resolvePath (base ref : ByteStr) : ByteStr :=
  let buffer : ByteStr :=
    if ref = [] then base
    else if ref.headD 0 ≠ 47 then
      let i := lastIndexByte base 47
      base.take (i + 1).toNat ++ ref
    else ref
  if buffer = [] then []
  else
    let src := bsplit 47 buffer
    let dst := src.foldl (fun dst elem =>
      if elem = [46] then dst
      else if elem = [46, 46] then dst.dropLast
      else dst ++ [elem]) []
    let last := src.getLastD []
    let dst := if last = [46] ∨ last = [46, 46] then dst ++ [[]] else dst
    47 :: (List.intercalate [47] dst).dropWhile (fun b => b == 47)

/-- Translation of `ResolveReference` from bytesurl.go. -/
def ResolveReference (u ref : URL) : URL :=
  let url0 := if ref.scheme = [] then { ref with scheme := u.scheme } else ref
  if ref.scheme ≠ [] ∨ ref.host ≠ [] ∨ ref.user ≠ none then
    { url0 with path := resolvePath ref.path [] }
  else if ref.opq ≠ [] then
    { url0 with user := none, host := [], path := [] }
  else
    let url1 :=
      if ref.path = [] then
        if ref.rawQuery = [] then
          let url2 := { url0 with rawQuery := u.rawQuery }
          if ref.fragment = [] then { url2 with fragment := u.fragment } else url2
        else url0
      else url0
    { url1 with host := u.host, user := u.user, path := resolvePath u.path ref.path }

/-- Translation of the `Values` multimap from values.go.  A Go map holds each
key once; the association list keeps keys distinct in the same way because
`valuesAppend` extends an existing entry when the key is present. -/
abbrev Values := List (ByteStr × List ByteStr)

/-- The effect of `m[indexKey] = append(m[indexKey], value)` in values.go on
the association-list model. -/
def valuesAppend : Values → ByteStr → ByteStr → Values
  | [], k, v => [(k, [v])]
  | (k0, vs) :: rest, k, v =>
    if k0 = k then (k0, vs ++ [v]) :: rest else (k0, vs) :: valuesAppend rest k v

/-- Translation of the loop body of `parseQuery` from values.go, with the
running error made an explicit accumulator (Go keeps it in a local that only
the first failure writes). -/
def parseQuery (m : Values) (err : Option ByteStr) (query : ByteStr) : Values × Option ByteStr :=
  if hq : query = [] then (m, err)
  else
    let i := query.findIdx fun c => c == 38 || c == 59
    let key0 := if i < query.length then query.take i else query
    let query' := if i < query.length then query.drop (i + 1) else []
    if key0 = [] then parseQuery m err query'
    else
      let j := key0.findIdx fun c => c == 61
      let key1 := if j < key0.length then key0.take j else key0
      let value0 := if j < key0.length then key0.drop (j + 1) else []
      match QueryUnescape key1 with
      | (_, some e) => parseQuery m (if err = none then some e else err) query'
      | (k, none) =>
        match QueryUnescape value0 with
        | (_, some e) => parseQuery m (if err = none then some e else err) query'
        | (v, none) => parseQuery (valuesAppend m k v) err query'
termination_by query.length
decreasing_by
  all_goals
    split
    next h => simp only [List.length_drop]; omega
    next h => simpa using List.length_pos.mpr hq

/-- Translation of `ParseQuery` from values.go. -/
def ParseQuery (query : ByteStr) : Values × Option ByteStr := parseQuery [] none query

/-- Go string comparison (`sort.Strings` order): byte-lexicographic. -/
def lexLe : ByteStr → ByteStr → Bool
  | [], _ => true
  | _ :: _, [] => false
  | a :: as, b :: bs => if a < b then true else if a = b then lexLe as bs else false

/-- Insertion step of the key sort used to model Go's `sort.Strings`. -/
def insertKey (x : ByteStr) : List ByteStr → List ByteStr
  | [] => [x]
  | y :: ys => if lexLe x y then x :: y :: ys else y :: insertKey x ys

/-- The key sort used to model Go's `sort.Strings` in `Values.Encode`. -/
def sortKeys : List ByteStr → List ByteStr
  | [] => []
  | x :: xs => insertKey x (sortKeys xs)

/-- Map lookup `v[k]` on the association-list model of `Values`. -/
def lookupVals : Values → ByteStr → List ByteStr
  | [], _ => []
  | (k0, vs) :: rest, k => if k0 = k then vs else lookupVals rest k

/-- Translation of `Values.Encode` from values.go: sort the keys, then for
each key emit `key=value` for each stored value, writing `&` before every
pair except the first. -/
def Encode (m : Values) : ByteStr :=
  (sortKeys (m.map Prod.fst)).foldl (fun buf k =>
    let pre := QueryEscape k ++ [61]
    (lookupVals m k).foldl (fun buf v =>
      (if buf.length > 0 then buf ++ [38] else buf) ++ pre ++ QueryEscape v) buf) []

/-! ## Specification-side definitions used to state the claims -/

/-- Wording of the claims: the byte string begins with exactly one `/`
(a leading slash not followed by another slash). -/
def startsWithOneSlash (s : ByteStr) : Prop :=
  s.head? = some 47 ∧ s.tail.head? ≠ some 47

/-- Wording of the spec for C3: unreserved bytes `A-Z a-z 0-9 - _ . ~`. -/
def unreservedSpec (c : Nat) : Prop :=
  (65 ≤ c ∧ c ≤ 90) ∨ (97 ≤ c ∧ c ≤ 122) ∨ (48 ≤ c ∧ c ≤ 57) ∨ c ∈ [45, 95, 46, 126]

instance decUnreservedSpec (c : Nat) : Decidable (unreservedSpec c) := by
  unfold unreservedSpec; infer_instance


/-- Wording of the spec for C3: the reserved bytes `$ & + , / : ; = ? @`. -/
def reservedSpec : List Nat := [36, 38, 43, 44, 47, 58, 59, 61, 63, 64]

/-- Wording of the spec for C3: which reserved bytes each context escapes. -/
def reservedEscapedIn : encoding → List Nat
  | .encodePath => [63]
  | .encodeUserPassword => [64, 47, 63, 58]
  | .encodeQueryComponent => reservedSpec
  | .encodeFragment => []

/-- Wording of the spec for C3: the full per-context escape table. -/
def shouldEscapeSpec (c : Nat) (mode : encoding) : Bool :=
  if unreservedSpec c then false
  else if c ∈ reservedSpec then decide (c ∈ reservedEscapedIn mode)
  else true

/-! ## Helper lemmas -/

/-- After dropping the leading slashes, the head is not a slash. -/
theorem head_dropWhile_slash_ne (l : ByteStr) :
    ((l.dropWhile fun b => b == 47).head?) ≠ some 47 := by
  induction l with
  | nil => simp
  | cons a l ih =>
    simp only [List.dropWhile_cons]
    split
    · exact ih
    · next h =>
      simp only [List.head?_cons, ne_eq, Option.some.injEq]
      intro hEq
      exact h (by simp [hEq])

/-! ## Claim theorems -/

/-- C1 counterexample: with both the base path and the reference path empty,
`resolvePath` returns the empty byte string, which does not begin with a
slash — refuting the claim that the result always begins with exactly one
`/`, including when both inputs are empty. -/
theorem resolvePath_empty_empty :
    resolvePath [] [] = [] ∧ ¬ startsWithOneSlash (resolvePath [] []) := by
  constructor
  · rfl
  · intro h
    exact Option.noConfusion (h.1)

/-- C1 (amended): `resolvePath` is a total function of the pair of paths and,
except when both the base path and the reference path are empty (where the
result is the empty string), its result begins with exactly one `/` — it is
`/` followed by the kept segments joined with `/` with extra leading slashes
collapsed to one. -/
theorem resolvePath_starts_with_one_slash (base ref : ByteStr)
    (h : ¬(base = [] ∧ ref = [])) : startsWithOneSlash (resolvePath base ref) := by
  unfold resolvePath
  set buffer := (if ref = [] then base
    else if ref.headD 0 ≠ 47 then base.take ((lastIndexByte base 47) + 1).toNat ++ ref
    else ref) with hbufdef
  have hbuf : buffer ≠ [] := by
    rw [hbufdef]
    split
    · next h1 => intro hb; exact h ⟨hb, h1⟩
    · split
      · next h1 _ =>
        intro hb
        rcases List.append_eq_nil.mp hb with ⟨_, hr⟩
        exact h1 hr
      · next h1 _ => exact h1
  rw [if_neg hbuf]
  exact ⟨rfl, head_dropWhile_slash_ne _⟩

/-- C1 witness. -/
theorem resolvePath_starts_with_one_slash_witness :
    startsWithOneSlash (resolvePath [97, 47, 98] [99]) :=
  resolvePath_starts_with_one_slash [97, 47, 98] [99] (by simp)

/-- C2: when the reference has empty scheme, empty host, no userinfo, empty
opaque data and an empty path, `ResolveReference` inherits the base's raw
query exactly when the reference's raw query is empty, and inside that branch
inherits the base's fragment exactly when the reference's fragment is also
empty; with a non-empty reference query, both the raw query and the fragment
stay the reference's own. -/
theorem resolveReference_query_fragment_gate (base ref : URL)
    (hs : ref.scheme = []) (hh : ref.host = []) (hu : ref.user = none)
    (ho : ref.opq = []) (hp : ref.path = []) :
    (ref.rawQuery = [] →
      (ResolveReference base ref).rawQuery = base.rawQuery ∧
      (ref.fragment = [] → (ResolveReference base ref).fragment = base.fragment) ∧
      (ref.fragment ≠ [] → (ResolveReference base ref).fragment = ref.fragment)) ∧
    (ref.rawQuery ≠ [] →
      (ResolveReference base ref).rawQuery = ref.rawQuery ∧
      (ResolveReference base ref).fragment = ref.fragment) := by
  constructor
  · intro hq
    by_cases hf : ref.fragment = []
    · exact ⟨by simp [ResolveReference, hs, hh, hu, ho, hp, hq, hf],
        fun _ => by simp [ResolveReference, hs, hh, hu, ho, hp, hq, hf],
        fun hf2 => absurd hf hf2⟩
    · exact ⟨by simp [ResolveReference, hs, hh, hu, ho, hp, hq, hf],
        fun hf2 => absurd hf2 hf,
        fun _ => by simp [ResolveReference, hs, hh, hu, ho, hp, hq, hf]⟩
  · intro hq
    constructor <;> simp [ResolveReference, hs, hh, hu, ho, hp, hq]

/-- C2 witness. -/
theorem resolveReference_query_fragment_gate_witness :
    (ResolveReference ⟨[104], [], none, [97], [47, 98], [113], [102]⟩
      ⟨[], [], none, [], [], [], []⟩).rawQuery = [113] :=
  ((resolveReference_query_fragment_gate _ _ rfl rfl rfl rfl rfl).1 rfl).1

set_option maxRecDepth 8000 in
/-- C3: `shouldEscape` agrees with the specification's per-context table for
every byte, and on a single escaped byte `escape` emits `+` for a space in
the query-component context and `%XX` with uppercase hex digits otherwise. -/
theorem shouldEscape_matches_table (c : Nat) (hc : c < 256) (mode : encoding) :
    shouldEscape c mode = shouldEscapeSpec c mode ∧
    escape [c] mode =
      (if c = 32 ∧ mode = .encodeQueryComponent then [43]
       else if shouldEscapeSpec c mode then [37, hexUpper.getD (c / 16) 0, hexUpper.getD (c % 16) 0]
       else [c]) := by
  revert hc
  cases mode <;> revert c <;> decide

set_option maxRecDepth 8000 in
/-- C3 witness: the table at byte `?` (63) in the path context. -/
theorem shouldEscape_matches_table_witness :
    shouldEscape 63 .encodePath = shouldEscapeSpec 63 .encodePath ∧
    escape [63] .encodePath =
      (if (63 : Nat) = 32 ∧ encoding.encodePath = .encodeQueryComponent then [43]
       else if shouldEscapeSpec 63 .encodePath then
         [37, hexUpper.getD (63 / 16) 0, hexUpper.getD (63 % 16) 0]
       else [63]) :=
  shouldEscape_matches_table 63 (by decide) .encodePath

/-- C10: whenever the reference has an empty scheme, an empty host, no
userinfo and empty opaque data, `ResolveReference` takes the base's host and
userinfo and resolves the path as `resolvePath` of the base path and the
reference path — also when the reference path is empty. -/
theorem resolveReference_inherits_authority (base ref : URL)
    (hs : ref.scheme = []) (hh : ref.host = []) (hu : ref.user = none)
    (ho : ref.opq = []) :
    (ResolveReference base ref).host = base.host ∧
    (ResolveReference base ref).user = base.user ∧
    (ResolveReference base ref).path = resolvePath base.path ref.path := by
  simp only [ResolveReference, hs, hh, hu, ho]
  split
  · next hcond => simp [hs, hh, hu] at hcond
  · split
    · next hcond => simp [ho] at hcond
    · split <;> split <;> simp

/-- C10 witness, with an empty reference path. -/
theorem resolveReference_inherits_authority_witness :
    (ResolveReference ⟨[104], [], none, [97], [47, 98], [113], []⟩
      ⟨[], [], none, [], [], [121], []⟩).path = resolvePath [47, 98] [] :=
  (resolveReference_inherits_authority _ _ rfl rfl rfl rfl).2.2

/-- Wording of the spec for C6: authority detection triggers exactly when the
post-query remainder starts with `//` and either the scheme is non-empty, or
parsing is not strict and the remainder does not start with `///`. -/
def authTriggerSpec (scheme rest : ByteStr) (strict : Bool) : Prop :=
  rest.take 2 = [47, 47] ∧ (scheme ≠ [] ∨ (strict = false ∧ rest.take 3 ≠ [47, 47, 47]))

instance decAuthTriggerSpec (scheme rest : ByteStr) (v : Bool) :
    Decidable (authTriggerSpec scheme rest v) := by
  unfold authTriggerSpec; infer_instance

/-- The parser's authority guard (source order) agrees with the spec's
formulation of the condition. -/
theorem authorityTriggered_iff (scheme rest : ByteStr) (v : Bool) :
    authorityTriggered scheme rest v = true ↔ authTriggerSpec scheme rest v := by
  cases v <;>
    simp [authorityTriggered, authTriggerSpec, hasPfx, List.isEmpty_iff] <;>
    tauto

/-- If `parseAfterOpaque` returns a URL, its host holds no literal `%`. -/
theorem parseAfterOpaque_host_no_percent (scheme rest rawQuery : ByteStr) (v : Bool) (url : URL)
    (h : parseAfterOpaque scheme rest rawQuery v = .ok url) : 37 ∉ url.host := by
  unfold parseAfterOpaque at h
  split at h
  · split at h
    · exact absurd h (by simp)
    · next user host _ =>
      split at h
      · exact absurd h (by simp)
      · next hnot =>
        split at h
        · exact absurd h (by simp)
        · cases h
          simpa using hnot
  · split at h
    · exact absurd h (by simp)
    · cases h
      simp

/-- C6: authority detection (the split of the remainder into authority and
path) happens exactly under the spec's condition, and otherwise the whole
remainder is decoded as the path with no host and no userinfo. -/
theorem authority_detection_guard :
    (∀ scheme rest : ByteStr, ∀ viaRequest : Bool,
      authorityTriggered scheme rest viaRequest = true ↔
        authTriggerSpec scheme rest viaRequest) ∧
    (∀ scheme rest rawQuery : ByteStr, ∀ viaRequest : Bool,
      ¬ authTriggerSpec scheme rest viaRequest →
        parseAfterOpaque scheme rest rawQuery viaRequest =
          (match unescape rest .encodePath with
           | (_, some e) => Except.error (.escapeErr e)
           | (p, none) => Except.ok { scheme := scheme, path := p, rawQuery := rawQuery })) := by
  refine ⟨authorityTriggered_iff, ?_⟩
  intro scheme rest rawQuery v hn
  have ht : authorityTriggered scheme rest v = false := by
    rcases Bool.eq_false_or_eq_true (authorityTriggered scheme rest v) with h | h
    · exact absurd ((authorityTriggered_iff scheme rest v).mp h) hn
    · exact h
  rw [parseAfterOpaque, if_neg (by simp [ht])]

/-- C6 witness: a scheme-less, non-strict `///` remainder is all path. -/
theorem authority_detection_guard_witness :
    parseAfterOpaque [] [47, 47, 47, 97] [] false =
      Except.ok { path := [47, 47, 47, 97], rawQuery := [] } := by
  have h := authority_detection_guard.2 [] [47, 47, 47, 97] [] false (by decide)
  exact h.trans (by rfl)

/-- If `parsePostScheme` returns a URL, its host holds no literal `%`. -/
theorem parsePostScheme_host_no_percent (scheme rest rawQuery : ByteStr) (v : Bool) (url : URL)
    (h : parsePostScheme scheme rest rawQuery v = .ok url) : 37 ∉ url.host := by
  unfold parsePostScheme at h
  by_cases h1 : hasPfx rest [47] = false
  · rw [if_pos h1] at h
    by_cases h2 : scheme ≠ []
    · rw [if_pos h2] at h
      cases h
      simp
    · rw [if_neg h2] at h
      by_cases h3 : v = true
      · rw [if_pos h3] at h; exact absurd h (by simp)
      · rw [if_neg h3] at h
        exact parseAfterOpaque_host_no_percent _ _ _ _ _ h
  · rw [if_neg h1] at h
    exact parseAfterOpaque_host_no_percent _ _ _ _ _ h

/-- C7: whenever authority detection runs and the parsed authority's host
holds a literal `%` byte, the parse fails with the percent-encoding-in-host
error — for every scheme — and consequently a URL returned by `parse` (used
by both entry points) never carries a `%` in its host. -/
theorem host_percent_always_rejected :
    (∀ scheme rest rawQuery : ByteStr, ∀ viaRequest : Bool,
      ∀ user : Option Userinfo, ∀ host : ByteStr,
      authorityTriggered scheme rest viaRequest = true →
      parseAuthority (split (rest.drop 2) 47 false).1 = .ok (user, host) →
      37 ∈ host →
      parseAfterOpaque scheme rest rawQuery viaRequest = .error .hexEscape) ∧
    (∀ rawurl : ByteStr, ∀ viaRequest : Bool, ∀ url : URL,
      parse rawurl viaRequest = .ok url → 37 ∉ url.host) := by
  constructor
  · intro scheme rest rawQuery v user host ht hpa hmem
    rw [parseAfterOpaque, if_pos (show authorityTriggered scheme rest v = true from ht), hpa]
    simp [hmem]
  · intro rawurl v url hp hmem
    rw [parse] at hp
    by_cases h1 : rawurl = [] ∧ v = true
    · rw [if_pos h1] at hp; exact absurd hp (by simp)
    · rw [if_neg h1] at hp
      by_cases h2 : rawurl = [42]
      · rw [if_pos h2] at hp
        cases hp
        simp at hmem
      · rw [if_neg h2] at hp
        cases hgs : getscheme rawurl with
        | error e => rw [hgs] at hp; exact absurd hp (by simp)
        | ok pr =>
          obtain ⟨scheme0, rest0⟩ := pr
          rw [hgs] at hp
          exact absurd hmem (parsePostScheme_host_no_percent _ _ _ _ _ hp)

/-- C7 witness: `http://ho%st` fails with the host percent error. -/
theorem host_percent_always_rejected_witness :
    parseAfterOpaque [104, 116, 116, 112] [47, 47, 104, 111, 37, 115, 116] [] false =
      .error .hexEscape :=
  host_percent_always_rejected.1 [104, 116, 116, 112] [47, 47, 104, 111, 37, 115, 116] [] false
    none [104, 111, 37, 115, 116] (by decide) (by rfl) (by decide)

/-! ## Lemmas about the key order and the encoder -/

/-- The byte-lexicographic order is total. -/
theorem lexLe_total : ∀ a b : ByteStr, lexLe a b = true ∨ lexLe b a = true
  | [], _ => Or.inl rfl
  | _ :: _, [] => Or.inr rfl
  | a :: as, b :: bs => by
    rcases Nat.lt_trichotomy a b with h | h | h
    · left; simp [lexLe, h]
    · subst h
      rcases lexLe_total as bs with ih | ih
      · left; simp [lexLe, ih]
      · right; simp [lexLe, ih]
    · right; simp [lexLe, h]

/-- The byte-lexicographic order is transitive. -/
theorem lexLe_trans : ∀ a b c : ByteStr,
    lexLe a b = true → lexLe b c = true → lexLe a c = true
  | [], _, _, _, _ => rfl
  | _ :: _, [], _, h, _ => by simp [lexLe] at h
  | _ :: _, _ :: _, [], _, h => by simp [lexLe] at h
  | a :: as, b :: bs, c :: cs, h1, h2 => by
    simp only [lexLe] at h1 h2 ⊢
    rcases Nat.lt_trichotomy a b with hab | hab | hab
    · rcases Nat.lt_trichotomy b c with hbc | hbc | hbc
      · simp [Nat.lt_trans hab hbc]
      · subst hbc; simp [hab]
      · rw [if_neg (Nat.lt_asymm hbc), if_neg (Nat.ne_of_gt hbc)] at h2
        exact absurd h2 (by simp)
    · subst hab
      rcases Nat.lt_trichotomy a c with hac | hac | hac
      · simp [hac]
      · subst hac
        rw [if_neg (Nat.lt_irrefl a), if_pos rfl] at h1 h2 ⊢
        exact lexLe_trans as bs cs h1 h2
      · rw [if_neg (Nat.lt_asymm hac), if_neg (Nat.ne_of_gt hac)] at h2
        exact absurd h2 (by simp)
    · rw [if_neg (Nat.lt_asymm hab), if_neg (Nat.ne_of_gt hab)] at h1
      exact absurd h1 (by simp)

/-- Inserting a key yields a permutation of consing it. -/
theorem insertKey_perm (x : ByteStr) (l : List ByteStr) :
    (insertKey x l).Perm (x :: l) := by
  induction l with
  | nil => exact List.Perm.refl _
  | cons y ys ih =>
    rw [insertKey]
    split
    · exact List.Perm.refl _
    · exact (ih.cons y).trans (List.Perm.swap x y ys)

/-- Insertion preserves sortedness in the byte-lexicographic order. -/
theorem insertKey_sorted (x : ByteStr) (l : List ByteStr)
    (hl : l.Sorted fun a b => lexLe a b = true) :
    (insertKey x l).Sorted fun a b => lexLe a b = true := by
  induction l with
  | nil => simp [insertKey]
  | cons y ys ih =>
    rw [insertKey]
    split
    · next hxy =>
      refine List.sorted_cons.mpr ⟨?_, hl⟩
      intro z hz
      rcases List.mem_cons.mp hz with rfl | hz'
      · exact hxy
      · exact lexLe_trans x y z hxy ((List.sorted_cons.mp hl).1 z hz')
    · next hxy =>
      have hy := (List.sorted_cons.mp hl).1
      have hys := (List.sorted_cons.mp hl).2
      refine List.sorted_cons.mpr ⟨?_, ih hys⟩
      intro z hz
      have hz2 := (insertKey_perm x ys).mem_iff.mp hz
      rcases List.mem_cons.mp hz2 with rfl | hz'
      · rcases lexLe_total z y with h | h
        · exact absurd h (by simpa using hxy)
        · exact h
      · exact hy z hz'

/-- The key sort returns a permutation of its input. -/
theorem sortKeys_perm (l : List ByteStr) : (sortKeys l).Perm l := by
  induction l with
  | nil => exact List.Perm.refl _
  | cons x xs ih => exact (insertKey_perm x (sortKeys xs)).trans (ih.cons x)

/-- The key sort sorts in the byte-lexicographic order. -/
theorem sortKeys_sorted (l : List ByteStr) :
    (sortKeys l).Sorted fun a b => lexLe a b = true := by
  induction l with
  | nil => simp [sortKeys]
  | cons x xs ih => exact insertKey_sorted x (sortKeys xs) ih

/-- The `&`-separated buffer fold of `Values.Encode`, abstracted over the
items written. -/
def sepFold (ps : List ByteStr) (acc : ByteStr) : ByteStr :=
  ps.foldl (fun buf x => (if buf.length > 0 then buf ++ [38] else buf) ++ x) acc

/-- Writing into a non-empty buffer always goes through the `&` branch. -/
theorem sepFold_ne_nil (ps : List ByteStr) (acc : ByteStr) (hacc : acc ≠ []) :
    sepFold ps acc = acc ++ ps.flatMap fun x => 38 :: x := by
  induction ps generalizing acc with
  | nil => simp [sepFold]
  | cons p ps ih =>
    rw [sepFold, List.foldl_cons]
    rw [if_pos (by simpa [List.length_pos] using hacc)]
    rw [show List.foldl _ ((acc ++ [38]) ++ p) ps = sepFold ps ((acc ++ [38]) ++ p) from rfl]
    rw [ih _ (by simp)]
    simp

/-- Prepending an item to the amp-prefixed flattening is the
`&`-intercalation. -/
theorem append_flatMap_amp (p : ByteStr) (ps : List ByteStr) :
    (p ++ ps.flatMap fun x => 38 :: x) = List.intercalate [38] (p :: ps) := by
  induction ps generalizing p with
  | nil => simp [List.intercalate]
  | cons q qs ih =>
    have hq := ih q
    simp only [List.intercalate, List.flatMap_cons] at hq ⊢
    cases qs with
    | nil => simp [List.intersperse]
    | cons r rs =>
      simp only [List.intersperse, List.flatten, List.cons_append] at hq ⊢
      rw [← hq]
      simp

/-- On an empty buffer the fold produces the `&`-intercalation, provided no
item is empty. -/
theorem sepFold_nil (ps : List ByteStr) (hps : ∀ x ∈ ps, x ≠ []) :
    sepFold ps [] = List.intercalate [38] ps := by
  cases ps with
  | nil => rfl
  | cons p ps =>
    rw [sepFold, List.foldl_cons]
    simp only [List.length_nil, gt_iff_lt, Nat.lt_irrefl, if_false, List.nil_append]
    rw [show List.foldl _ p ps = sepFold ps p from rfl]
    by_cases hp : p = []
    · exact absurd hp (hps p (List.mem_cons_self p ps))
    · rw [sepFold_ne_nil ps p hp]
      exact append_flatMap_amp p ps

/-- The nested fold of `Values.Encode` is the flat fold over all pairs. -/
theorem encode_foldl_flat (m : Values) (ks : List ByteStr) (acc : ByteStr) :
    ks.foldl (fun buf k =>
      (lookupVals m k).foldl (fun buf v =>
        (if buf.length > 0 then buf ++ [38] else buf) ++
          (QueryEscape k ++ [61]) ++ QueryEscape v) buf) acc =
    sepFold (ks.flatMap fun k =>
      (lookupVals m k).map fun v => QueryEscape k ++ [61] ++ QueryEscape v) acc := by
  induction ks generalizing acc with
  | nil => rfl
  | cons k ks ih =>
    rw [List.foldl_cons, List.flatMap_cons]
    rw [ih]
    simp only [sepFold, List.foldl_append, List.foldl_map, List.append_assoc]

/-- C9: `Values.Encode` enumerates the keys in ascending byte-lexicographic
order (the sorted key list is an ordered permutation of the map's keys) and
emits, for each key, its stored values in order as percent-encoded
`key=value` pairs joined by `&`; the empty (or absent) map encodes to the
empty string. -/
theorem encode_sorted_amp_pairs (m : Values) :
    Encode m = List.intercalate [38]
        ((sortKeys (m.map Prod.fst)).flatMap fun k =>
          (lookupVals m k).map fun v => QueryEscape k ++ [61] ++ QueryEscape v) ∧
    ((sortKeys (m.map Prod.fst)).Sorted fun a b => lexLe a b = true) ∧
    (sortKeys (m.map Prod.fst)).Perm (m.map Prod.fst) ∧
    Encode [] = [] := by
  refine ⟨?_, sortKeys_sorted _, sortKeys_perm _, rfl⟩
  have hE : Encode m = (sortKeys (m.map Prod.fst)).foldl (fun buf k =>
      (lookupVals m k).foldl (fun buf v =>
        (if buf.length > 0 then buf ++ [38] else buf) ++
          (QueryEscape k ++ [61]) ++ QueryEscape v) buf) [] := rfl
  rw [hE, encode_foldl_flat]
  apply sepFold_nil
  intro x hx
  rcases List.mem_flatMap.mp hx with ⟨k, _, hxk⟩
  rcases List.mem_map.mp hxk with ⟨v, _, rfl⟩
  intro h
  have hlen := congrArg List.length h
  simp only [List.length_append, List.length_cons, List.length_nil] at hlen
  omega

/-! ## Specification-side view of the query parser (C8) -/

/-- Wording of the spec for C8: the raw query split on `&` or `;`, as the
parse loop consumes it segment by segment. -/
def splitSegs (q : ByteStr) : List ByteStr :=
  if hq : q = [] then []
  else
    let i := q.findIdx fun c => c == 38 || c == 59
    if i < q.length then q.take i :: splitSegs (q.drop (i + 1))
    else [q]
termination_by q.length
decreasing_by
  next h => simp only [List.length_drop]; omega

/-- Wording of the spec for C8: the key part of a segment, up to the first
`=`; the whole segment when no `=` occurs. -/
def segKey (seg : ByteStr) : ByteStr :=
  let j := seg.findIdx fun c => c == 61
  if j < seg.length then seg.take j else seg

/-- Wording of the spec for C8: the value part of a segment, after the first
`=`; empty when no `=` occurs. -/
def segVal (seg : ByteStr) : ByteStr :=
  let j := seg.findIdx fun c => c == 61
  if j < seg.length then seg.drop (j + 1) else []

/-- First error of the segment list, in order of occurrence. -/
def firstErr (segErrOf : ByteStr → Option ByteStr) : List ByteStr → Option ByteStr
  | [] => none
  | seg :: rest =>
    match segErrOf seg with
    | some e => some e
    | none => firstErr segErrOf rest

/-- The successfully decoded key/value pair of a segment, if any. -/
def segPair (seg : ByteStr) : Option (ByteStr × ByteStr) :=
  match QueryUnescape (segKey seg) with
  | (_, some _) => none
  | (k, none) =>
    match QueryUnescape (segVal seg) with
    | (_, some _) => none
    | (v, none) => some (k, v)

/-- The decoding error a segment produces, if any: a key error first,
otherwise a value error. -/
def segErr (seg : ByteStr) : Option ByteStr :=
  match QueryUnescape (segKey seg) with
  | (_, some e) => some e
  | (_, none) =>
    match QueryUnescape (segVal seg) with
    | (_, some e) => some e
    | (_, none) => none

/-- Wording of the spec for C8: discard empty segments, decode key and value
of each remaining segment independently in the query-component context,
append every successfully decoded pair in order of occurrence, and return at
most the first decoding error. -/
def specParseQuery (m : Values) (q : ByteStr) : Values × Option ByteStr :=
  let segs := (splitSegs q).filter fun s => !s.isEmpty
  (segs.foldl (fun acc seg =>
      match segPair seg with
      | some (k, v) => valuesAppend acc k v
      | none => acc) m,
   firstErr segErr segs)

/-- The per-segment step shared by the byte-level and segment-level views of
the parse loop: skip an empty segment, keep the first error of a failed
decode, append a decoded pair, then continue with `recur`. -/
def segStep (m : Values) (err : Option ByteStr) (key0 : ByteStr)
    (recur : Values → Option ByteStr → Values × Option ByteStr) : Values × Option ByteStr :=
  if key0 = [] then recur m err
  else
    match QueryUnescape (segKey key0) with
    | (_, some e) => recur m (if err = none then some e else err)
    | (k, none) =>
      match QueryUnescape (segVal key0) with
      | (_, some e) => recur m (if err = none then some e else err)
      | (v, none) => recur (valuesAppend m k v) err

/-- The parse loop viewed on the segment list instead of the raw bytes. -/
def segsLoop (m : Values) (err : Option ByteStr) : List ByteStr → Values × Option ByteStr
  | [] => (m, err)
  | seg :: rest => segStep m err seg fun mn en => segsLoop mn en rest

/-- Unfolding of `splitSegs` on a non-empty query. -/
theorem splitSegs_ne (q : ByteStr) (hq : q ≠ []) :
    splitSegs q =
      (if (q.findIdx fun c => c == 38 || c == 59) < q.length
       then q.take (q.findIdx fun c => c == 38 || c == 59) else q) ::
      splitSegs (if (q.findIdx fun c => c == 38 || c == 59) < q.length
                 then q.drop ((q.findIdx fun c => c == 38 || c == 59) + 1) else []) := by
  rw [splitSegs, dif_neg hq]
  show (if (q.findIdx fun c => c == 38 || c == 59) < q.length
        then q.take (q.findIdx fun c => c == 38 || c == 59) ::
          splitSegs (q.drop ((q.findIdx fun c => c == 38 || c == 59) + 1))
        else [q]) = _
  split
  · rfl
  · rw [splitSegs]
    simp

/-- The step function only looks at its continuation's results. -/
theorem segStep_congr (m : Values) (err : Option ByteStr) (k : ByteStr)
    (r1 r2 : Values → Option ByteStr → Values × Option ByteStr)
    (h : ∀ mn en, r1 mn en = r2 mn en) : segStep m err k r1 = segStep m err k r2 := by
  rw [segStep, segStep]
  split
  · exact h _ _
  · split
    · exact h _ _
    · split
      · exact h _ _
      · exact h _ _

/-- One iteration of the byte-level parse loop is the shared segment step on
the first segment, recursing on the rest of the query. -/
theorem parseQuery_step (m : Values) (err : Option ByteStr) (q : ByteStr) (hq : q ≠ []) :
    parseQuery m err q =
      segStep m err
        (if (q.findIdx fun c => c == 38 || c == 59) < q.length
         then q.take (q.findIdx fun c => c == 38 || c == 59) else q)
        (fun mn en => parseQuery mn en
          (if (q.findIdx fun c => c == 38 || c == 59) < q.length
           then q.drop ((q.findIdx fun c => c == 38 || c == 59) + 1) else [])) := by
  rw [parseQuery, dif_neg hq]
  rfl

/-- The byte-level parse loop agrees with the segment-level loop. -/
theorem parseQuery_eq_segsLoop (n : Nat) :
    ∀ q : ByteStr, q.length ≤ n → ∀ (m : Values) (err : Option ByteStr),
      parseQuery m err q = segsLoop m err (splitSegs q) := by
  induction n with
  | zero =>
    intro q hq m err
    have hqe : q = [] := List.eq_nil_of_length_eq_zero (Nat.le_zero.mp hq)
    subst hqe
    rw [parseQuery, splitSegs]
    simp [segsLoop]
  | succ n ih =>
    intro q hq m err
    by_cases hqe : q = []
    · subst hqe
      rw [parseQuery, splitSegs]
      simp [segsLoop]
    · rw [parseQuery_step m err q hqe, splitSegs_ne q hqe, segsLoop]
      apply segStep_congr
      intro mn en
      apply ih
      split
      · next h => simp only [List.length_drop]; omega
      · simp

/-- The segment-level loop computes the spec's fold and first error. -/
theorem segsLoop_eq_spec (segs : List ByteStr) :
    ∀ (m : Values) (err : Option ByteStr),
      segsLoop m err segs =
        ((segs.filter fun s => !s.isEmpty).foldl (fun acc seg =>
            match segPair seg with
            | some (k, v) => valuesAppend acc k v
            | none => acc) m,
         if err = none then firstErr segErr (segs.filter fun s => !s.isEmpty) else err) := by
  induction segs with
  | nil =>
    intro m err
    cases err <;> simp [segsLoop, firstErr]
  | cons seg rest ih =>
    intro m err
    rw [segsLoop, segStep]
    by_cases hs : seg = []
    · rw [if_pos hs]
      rw [ih]
      have hf : (seg :: rest).filter (fun s => !s.isEmpty) = rest.filter fun s => !s.isEmpty := by
        subst hs; simp
      rw [hf]
    · rw [if_neg hs]
      have hf : (seg :: rest).filter (fun s => !s.isEmpty) =
          seg :: (rest.filter fun s => !s.isEmpty) := by
        simp [List.filter_cons, List.isEmpty_iff, hs]
      rw [hf]
      split
      · next fst e hK =>
        rw [ih]
        have hp : segPair seg = none := by simp only [segPair, hK]
        have he : segErr seg = some e := by simp only [segErr, hK]
        rw [List.foldl_cons, firstErr, he, hp]
        cases err <;> simp
      · next k hK =>
        split
        · next fst e hV =>
          rw [ih]
          have hp : segPair seg = none := by simp only [segPair, hK, hV]
          have he : segErr seg = some e := by simp only [segErr, hK, hV]
          rw [List.foldl_cons, firstErr, he, hp]
          cases err <;> simp
        · next v hV =>
          rw [ih]
          have hp : segPair seg = some (k, v) := by simp only [segPair, hK, hV]
          have he : segErr seg = none := by simp only [segErr, hK, hV]
          rw [List.foldl_cons, firstErr, he, hp]

/-- C8: `parseQuery` splits the raw query on `&` or `;`, discards empty
segments, cuts each segment at the first `=` (a missing `=` gives an empty
value), decodes key and value independently in the query-component context,
appends every successfully decoded pair to its key in order of occurrence
without ever aborting, and returns at most the first decoding error (an
already-recorded error taking precedence). -/
theorem parseQuery_matches_spec :
    (∀ (m : Values) (err : Option ByteStr) (q : ByteStr),
      parseQuery m err q =
        ((specParseQuery m q).1,
         if err = none then (specParseQuery m q).2 else err)) ∧
    (∀ q : ByteStr, ParseQuery q = specParseQuery [] q) := by
  have key : ∀ (m : Values) (err : Option ByteStr) (q : ByteStr),
      parseQuery m err q =
        ((specParseQuery m q).1, if err = none then (specParseQuery m q).2 else err) := by
    intro m err q
    rw [parseQuery_eq_segsLoop q.length q (le_refl _) m err, segsLoop_eq_spec]
    rfl
  refine ⟨key, fun q => ?_⟩
  rw [ParseQuery, key [] none q]
  simp

/-! ## The malformed-escape characterisation (C4) -/

/-- Wording of the claim for C4: the bytes of `s` from offset `i` on start
with a `%` that is not followed by two hex digits (hex digits matched
case-insensitively by `ishex`). -/
def badAt (s : ByteStr) (i : Nat) : Bool :=
  match s.drop i with
  | 37 :: a :: b :: _ => !(ishex a && ishex b)
  | 37 :: _ => true
  | _ => false

/-- A hex digit is never the `%` byte. -/
theorem hex_ne_37 (x : Nat) (h : ishex x = true) : x ≠ 37 := by
  intro hx
  subst hx
  exact absurd h (by decide)

/-- Shifting `badAt` past one byte. -/
theorem badAt_cons_succ (c : Nat) (s : ByteStr) (i : Nat) :
    badAt (c :: s) (i + 1) = badAt s i := by
  rw [badAt, badAt, List.drop_succ_cons]

/-- A byte string whose head is not `%` is not bad at offset 0. -/
theorem badAt_cons_ne (c : Nat) (hc : c ≠ 37) (s : ByteStr) :
    badAt (c :: s) 0 = false := by
  rw [badAt]
  simp only [List.drop_zero]
  split
  · next heq => cases heq; exact absurd rfl hc
  · next heq => cases heq; exact absurd rfl hc
  · rfl

/-- A non-`%` head leaves the scan unchanged. -/
theorem scanErr_cons_ne (c : Nat) (hc : c ≠ 37) (t : ByteStr) :
    scanErr (c :: t) = scanErr t := by
  rw [scanErr.eq_def]
  split
  · next heq => cases heq
  · next heq => cases heq; exact absurd rfl hc
  · next heq => cases heq; exact absurd rfl hc
  · next heq => cases heq; rfl

/-- The scan of `unescape` succeeds exactly when no offset is bad, and on
failure reports the first bad offset with the bytes from it, capped at 3. -/
theorem scanErr_spec (s : ByteStr) :
    (scanErr s = none → ∀ i, badAt s i = false) ∧
    (∀ e, scanErr s = some e →
      ∃ i, badAt s i = true ∧ (∀ j, j < i → badAt s j = false) ∧
        e = (s.drop i).take 3) := by
  induction s using scanErr.induct with
  | case1 =>
    refine ⟨fun _ i => ?_, fun e he => by rw [scanErr] at he; cases he⟩
    rw [badAt]
    simp
  | case2 a b s hx ih =>
    have hx2 := hx
    rw [Bool.and_eq_true] at hx2
    have ha : a ≠ 37 := hex_ne_37 a hx2.1
    have hb : b ≠ 37 := hex_ne_37 b hx2.2
    have hsmall : ∀ j, j < 3 → badAt (37 :: a :: b :: s) j = false := by
      intro j hj
      match j with
      | 0 => rw [badAt]; simp [hx]
      | 1 =>
        rw [show (1 : Nat) = 0 + 1 from rfl, badAt_cons_succ]
        exact badAt_cons_ne a ha _
      | 2 =>
        rw [show (2 : Nat) = 0 + 1 + 1 from rfl, badAt_cons_succ, badAt_cons_succ]
        exact badAt_cons_ne b hb _
    constructor
    · intro hnone i
      have hs : scanErr s = none := by
        rw [scanErr] at hnone
        simpa [hx] using hnone
      match i with
      | 0 => exact hsmall 0 (by omega)
      | 1 => exact hsmall 1 (by omega)
      | 2 => exact hsmall 2 (by omega)
      | (n + 3) =>
        rw [show n + 3 = n + 1 + 1 + 1 from rfl, badAt_cons_succ, badAt_cons_succ,
          badAt_cons_succ]
        exact ih.1 hs n
    · intro e he
      have hs : scanErr s = some e := by
        rw [scanErr] at he
        simpa [hx] using he
      obtain ⟨i, hbad, hmin, hee⟩ := ih.2 e hs
      refine ⟨i + 3, ?_, ?_, ?_⟩
      · rw [show i + 3 = i + 1 + 1 + 1 from rfl, badAt_cons_succ, badAt_cons_succ,
          badAt_cons_succ]
        exact hbad
      · intro j hj
        by_cases hj3 : j < 3
        · exact hsmall j hj3
        · obtain ⟨n, rfl⟩ : ∃ n, j = n + 3 := ⟨j - 3, by omega⟩
          rw [show n + 3 = n + 1 + 1 + 1 from rfl, badAt_cons_succ, badAt_cons_succ,
            badAt_cons_succ]
          exact hmin n (by omega)
      · rw [show i + 3 = i + 1 + 1 + 1 from rfl, List.drop_succ_cons, List.drop_succ_cons,
          List.drop_succ_cons]
        exact hee
  | case3 a b s hx =>
    constructor
    · intro hnone
      rw [scanErr] at hnone
      simp [hx] at hnone
    · intro e he
      rw [scanErr, if_neg hx] at he
      cases he
      refine ⟨0, ?_, fun j hj => absurd hj (by omega), rfl⟩
      have hx0 : (ishex a && ishex b) = false := by
        revert hx
        cases (ishex a && ishex b) <;> simp
      rw [badAt]
      simp only [List.drop_zero]
      simp [hx0]
  | case4 s hshort =>
    rcases s with _ | ⟨x, s1⟩
    · refine ⟨fun hnone => Option.noConfusion hnone, fun e he => ?_⟩
      cases (show some ([37] : ByteStr) = some e from he)
      exact ⟨0, rfl, fun j hj => absurd hj (by omega), rfl⟩
    · rcases s1 with _ | ⟨y, s2⟩
      · refine ⟨fun hnone => Option.noConfusion hnone, fun e he => ?_⟩
        cases (show some (37 :: [x]) = some e from he)
        exact ⟨0, rfl, fun j hj => absurd hj (by omega), rfl⟩
      · exact absurd rfl (hshort x y s2)
  | case5 head s hno h37 ih =>
    have hne : head ≠ 37 := fun h => h37 h
    constructor
    · intro hnone i
      have hs : scanErr s = none := by rwa [scanErr_cons_ne head hne s] at hnone
      match i with
      | 0 => exact badAt_cons_ne head hne s
      | (n + 1) =>
        rw [badAt_cons_succ]
        exact ih.1 hs n
    · intro e he
      have hs : scanErr s = some e := by rwa [scanErr_cons_ne head hne s] at he
      obtain ⟨i, hbad, hmin, hee⟩ := ih.2 e hs
      refine ⟨i + 1, ?_, ?_, ?_⟩
      · rw [badAt_cons_succ]; exact hbad
      · intro j hj
        match j with
        | 0 => exact badAt_cons_ne head hne s
        | (n + 1) =>
          rw [badAt_cons_succ]
          exact hmin n (by omega)
      · rw [List.drop_succ_cons]
        exact hee

/-- The scan decides `unescape`'s error component, and a failed scan forces
the empty-data error result. -/
theorem unescape_parts (s : ByteStr) (mode : encoding) :
    (unescape s mode).2 = scanErr s ∧
    (∀ e, scanErr s = some e → unescape s mode = ([], some e)) := by
  cases h : scanErr s with
  | none =>
    constructor
    · simp only [unescape, h]
      split <;> rfl
    · intro e he
      simp [h] at he
  | some e =>
    constructor
    · simp only [unescape, h]
    · intro e2 he2
      cases he2
      simp only [unescape, h]

/-- C4: `unescape` fails exactly when the input holds a `%` not followed by
two hex digits (hex digits matched case-insensitively); on failure the data
returned is empty and the error payload is the bytes starting at the first
offending `%`, at most 3 of them; on success no error is returned. -/
theorem unescape_error_iff (s : ByteStr) (mode : encoding) :
    ((unescape s mode).2 = none ↔ ∀ i, badAt s i = false) ∧
    (∀ e, (unescape s mode).2 = some e →
      (unescape s mode).1 = [] ∧
      ∃ i, badAt s i = true ∧ (∀ j, j < i → badAt s j = false) ∧
        e = (s.drop i).take 3) := by
  obtain ⟨h2, herr⟩ := unescape_parts s mode
  obtain ⟨hnone, hsome⟩ := scanErr_spec s
  constructor
  · rw [h2]
    constructor
    · exact hnone
    · intro hall
      cases h : scanErr s with
      | none => rfl
      | some e =>
        obtain ⟨i, hbad, _, _⟩ := hsome e h
        rw [hall i] at hbad
        cases hbad
  · intro e he
    rw [h2] at he
    exact ⟨by rw [herr e he], hsome e he⟩

/-- C4 witness: `%4` fails with data `[]` and the 2-byte payload `%4`. -/
theorem unescape_error_iff_witness :
    (unescape [37, 52] .encodePath).1 = [] :=
  ((unescape_error_iff [37, 52] .encodePath).2 [37, 52] (by rfl)).1

/-! ## The escape/unescape round trip (C5) -/

/-- The `%` byte is escaped in every context. -/
theorem shouldEscape_37 (mode : encoding) : shouldEscape 37 mode = true := by
  cases mode <;> decide

/-- The `+` byte is escaped in the query-component context. -/
theorem shouldEscape_43_query : shouldEscape 43 .encodeQueryComponent = true := by decide

/-- Every entry of the uppercase hex table is a hex digit. -/
theorem ishex_hexUpper : ∀ d : Nat, d < 16 → ishex (hexUpper.getD d 0) = true := by decide

/-- Reading an uppercase hex digit back gives its value. -/
theorem unhex_hexUpper : ∀ d : Nat, d < 16 → unhex (hexUpper.getD d 0) = d := by decide

set_option maxRecDepth 16000 in
/-- Recomposing the two hex nibbles of a byte gives the byte back. -/
theorem recompose_nibbles : ∀ c : Nat, c < 256 → ((c >>> 4) <<< 4 ||| (c &&& 15)) = c := by
  decide

/-- The high nibble of a byte is below 16. -/
theorem shr4_lt (c : Nat) (hc : c < 256) : c >>> 4 < 16 := by
  rw [Nat.shiftRight_eq_div_pow]
  omega

/-- The low nibble of a byte is below 16. -/
theorem and15_lt (c : Nat) : c &&& 15 < 16 :=
  Nat.lt_succ_of_le Nat.and_le_right

/-- A head that is neither `%` nor `+` is copied by the decode pass. -/
theorem decodeLoop_cons_ne (c : Nat) (h37 : c ≠ 37) (h43 : c ≠ 43) (t : ByteStr)
    (mode : encoding) : decodeLoop (c :: t) mode = c :: decodeLoop t mode := by
  rw [decodeLoop.eq_def]
  split
  · next heq => cases heq
  · next heq => cases heq; exact absurd rfl h37
  · next heq => cases heq; exact absurd rfl h43
  · next heq => cases heq; rfl

/-- Zero escape counts mean no byte of the input needs escaping. -/
theorem escapeCount_zero : ∀ (s : ByteStr) (mode : encoding),
    (escapeCount s mode).1 = 0 ∧ (escapeCount s mode).2 = 0 →
    ∀ c ∈ s, shouldEscape c mode = false
  | [], _, _, c, hc => absurd hc (List.not_mem_nil c)
  | c0 :: s, mode, h, c, hc => by
    rw [escapeCount] at h
    by_cases hse : shouldEscape c0 mode = true
    · rw [if_pos hse] at h
      split at h <;> simp at h
    · have hse0 : shouldEscape c0 mode = false := by
        revert hse
        cases shouldEscape c0 mode <;> simp
      rw [if_neg hse] at h
      rcases List.mem_cons.mp hc with rfl | hc2
      · exact hse0
      · exact escapeCount_zero s mode h c hc2

/-- When nothing needs escaping, the write loop copies the input. -/
theorem flatten_escChar_id : ∀ (s : ByteStr) (mode : encoding),
    (∀ c ∈ s, shouldEscape c mode = false) → (s.map (escChar mode)).flatten = s
  | [], _, _ => rfl
  | c :: s, mode, h => by
    have hc := h c (List.mem_cons_self c s)
    have hcs : ¬(c = 32 ∧ mode = .encodeQueryComponent) := by
      rintro ⟨rfl, rfl⟩
      exact absurd hc (by decide)
    rw [List.map_cons, List.flatten_cons, escChar, if_neg hcs, if_neg (by simp [hc])]
    rw [flatten_escChar_id s mode fun x hx => h x (List.mem_cons_of_mem c hx)]
    rfl

/-- `escape` always produces the per-byte flattening, shortcut included. -/
theorem escape_eq_flatten (s : ByteStr) (mode : encoding) :
    escape s mode = (s.map (escChar mode)).flatten := by
  rw [escape]
  split
  · next h => exact (flatten_escChar_id s mode (escapeCount_zero s mode h)).symm
  · rfl

/-- What one escaped byte contributes passes the scan. -/
theorem scanErr_escChar (c : Nat) (hc : c < 256) (mode : encoding) (t : ByteStr) :
    scanErr (escChar mode c ++ t) = scanErr t := by
  rw [escChar]
  split
  · rfl
  · split
    · have h1 : ishex (hexUpper.getD (c >>> 4) 0) = true := ishex_hexUpper _ (shr4_lt c hc)
      have h2 : ishex (hexUpper.getD (c &&& 15) 0) = true := ishex_hexUpper _ (and15_lt c)
      show scanErr (37 :: hexUpper.getD (c >>> 4) 0 :: hexUpper.getD (c &&& 15) 0 :: t) =
        scanErr t
      rw [scanErr, if_pos (by rw [h1, h2]; rfl)]
    · next hcq hse =>
      have h37 : c ≠ 37 := by
        intro h
        subst h
        exact absurd (shouldEscape_37 mode) (by simp [hse])
      show scanErr (c :: t) = scanErr t
      exact scanErr_cons_ne c h37 t

/-- Decoding what one escaped byte contributes gives the byte back. -/
theorem decodeLoop_escChar (c : Nat) (hc : c < 256) (mode : encoding) (t : ByteStr) :
    decodeLoop (escChar mode c ++ t) mode = c :: decodeLoop t mode := by
  rw [escChar]
  split
  · next hcq =>
    obtain ⟨rfl, rfl⟩ := hcq
    show decodeLoop (43 :: t) .encodeQueryComponent = 32 :: decodeLoop t .encodeQueryComponent
    rw [decodeLoop]
    simp
  · split
    · show decodeLoop
          (37 :: hexUpper.getD (c >>> 4) 0 :: hexUpper.getD (c &&& 15) 0 :: t) mode =
        c :: decodeLoop t mode
      rw [decodeLoop, unhex_hexUpper _ (shr4_lt c hc), unhex_hexUpper _ (and15_lt c),
        recompose_nibbles c hc]
    · next hcq hse =>
      have h37 : c ≠ 37 := by
        intro h
        subst h
        exact absurd (shouldEscape_37 mode) (by simp [hse])
      by_cases h43 : c = 43
      · subst h43
        have hq : mode ≠ .encodeQueryComponent := by
          intro h
          subst h
          exact absurd shouldEscape_43_query (by simp [hse])
        show decodeLoop (43 :: t) mode = 43 :: decodeLoop t mode
        rw [decodeLoop, if_neg hq]
      · exact decodeLoop_cons_ne c h37 h43 t mode

/-- On input free of `%` and of mode-relevant `+`, the decode pass is the
identity. -/
theorem decodeLoop_id : ∀ (t : ByteStr) (mode : encoding),
    t.count 37 = 0 → ¬(mode = .encodeQueryComponent ∧ 43 ∈ t) → decodeLoop t mode = t
  | [], _, _, _ => rfl
  | c :: t, mode, h37, h43 => by
    have hc37 : c ≠ 37 := by
      intro h
      subst h
      rw [List.count_cons_self] at h37
      omega
    have ht37 : t.count 37 = 0 := by
      rw [List.count_cons] at h37
      omega
    have ht43 : ¬(mode = .encodeQueryComponent ∧ 43 ∈ t) := by
      rintro ⟨hm, hmem⟩
      exact h43 ⟨hm, List.mem_cons_of_mem c hmem⟩
    by_cases hc43 : c = 43
    · subst hc43
      have hq : mode ≠ .encodeQueryComponent := fun hm => h43 ⟨hm, List.mem_cons_self _ _⟩
      rw [decodeLoop, if_neg hq, decodeLoop_id t mode ht37 ht43]
    · rw [decodeLoop_cons_ne c hc37 hc43, decodeLoop_id t mode ht37 ht43]

/-- A clean scan makes `unescape` return the decode pass's output. -/
theorem unescape_scan_none (t : ByteStr) (mode : encoding) (h : scanErr t = none) :
    unescape t mode = (decodeLoop t mode, none) := by
  simp only [unescape, h]
  split
  · next hcnt => rw [decodeLoop_id t mode hcnt.1 hcnt.2]
  · rfl

/-- The full escaped output passes the scan. -/
theorem scanErr_flat (mode : encoding) : ∀ s : ByteStr, (∀ c ∈ s, c < 256) →
    scanErr ((s.map (escChar mode)).flatten) = none
  | [], _ => rfl
  | c :: s, h => by
    rw [List.map_cons, List.flatten_cons, scanErr_escChar c (h c (List.mem_cons_self c s)) mode]
    exact scanErr_flat mode s fun x hx => h x (List.mem_cons_of_mem c hx)

/-- Decoding the full escaped output restores the input. -/
theorem decodeLoop_flat (mode : encoding) : ∀ s : ByteStr, (∀ c ∈ s, c < 256) →
    decodeLoop ((s.map (escChar mode)).flatten) mode = s
  | [], _ => rfl
  | c :: s, h => by
    rw [List.map_cons, List.flatten_cons,
      decodeLoop_escChar c (h c (List.mem_cons_self c s)) mode,
      decodeLoop_flat mode s fun x hx => h x (List.mem_cons_of_mem c hx)]

/-- C5: for every byte string free of the `%` byte, escaping and then
unescaping in the same context returns the original bytes with no error. -/
theorem escape_unescape_roundtrip (s : ByteStr) (mode : encoding)
    (h : ∀ c ∈ s, c < 256 ∧ c ≠ 37) :
    unescape (escape s mode) mode = (s, none) := by
  rw [escape_eq_flatten,
    unescape_scan_none _ _ (scanErr_flat mode s fun c hc => (h c hc).1),
    decodeLoop_flat mode s fun c hc => (h c hc).1]

/-- C5 witness: `"h ?"` in the query-component context. -/
theorem escape_unescape_roundtrip_witness :
    unescape (escape [104, 32, 63] .encodeQueryComponent) .encodeQueryComponent =
      ([104, 32, 63], none) :=
  escape_unescape_roundtrip [104, 32, 63] .encodeQueryComponent (by decide)

end Bytesurl
